import Mathlib

/-!
Verification of the runner2 update-and-launch agent against its
natural-language specification.

The Rust sources are shallowly embedded: Rust `u8` bytes become `Nat`
values below 256 with explicit masking, Rust `String`/`str` values become
`List Char`, fallible operations return `Except Err`, and the
filesystem/network collaborators of the orchestrator are modelled as an
explicit environment record of oracle results.  Definitions follow the
source files `src/config/secret.rs`, `src/config/mod.rs`,
`src/file/mod.rs`, `src/manifest/mod.rs` and `src/main.rs`.
-/

set_option maxHeartbeats 1000000
set_option maxRecDepth 10000

/-- Embedding of `error.rs`: the tagged error kinds that appear in the
operations modelled below (constructors unused by the modelled code paths
are omitted; each carries its message). -/
inductive Err
  | io (m : String)
  | datFile (m : String)
  | manifest (m : String)
  | fileSystem (m : String)
  | network (m : String)
  | other (m : String)
  deriving DecidableEq, Repr

/-! ## SecretCodec (`src/config/secret.rs`, `src/config/mod.rs`) -/

/-- The per-byte encoding step of `encode_secret` (secret.rs lines 13-18):
bitwise NOT, then rotate left one bit (the MSB of the inverted byte wraps
to the LSB).  Rust `u8` arithmetic is modelled on `Nat` with an explicit
`% 256` at the shift. -/
def encode_byte (b : Nat) : Nat :=
  let b1 := b ^^^ 255
  let fsb := decide (b1 &&& 128 > 0)
  let b2 := (b1 <<< 1) % 256
  b2 ||| (if fsb then 1 else 0)

/-- The per-byte decoding step of `decode_byte_array` (config/mod.rs lines
84-89): rotate right one bit (the LSB wraps to the MSB), then bitwise
NOT. -/
def decode_byte (b : Nat) : Nat :=
  let lsb := b &&& 1
  let d := (b >>> 1) ||| (lsb <<< 7)
  d ^^^ 255

/-- `decode_byte_array` (config/mod.rs lines 73-102): the input is a
sequence of encoded-byte/padding-byte pairs; every second byte is skipped
and `decode_byte` is applied to each retained byte.  A trailing unpaired
byte is dropped (the `i + 1 < len` guard). -/
def decode_byte_array : List Nat → List Nat
  | [] => []
  | [_] => []
  | b :: _ :: rest => decode_byte b :: decode_byte_array rest

/-- C1: the per-byte decoding transform of `decode_byte_array` (rotate
right one bit with LSB wrapping to MSB, then bitwise-invert) and the
per-byte encoding transform of `encode_secret` (bitwise-invert, then
rotate left one bit with MSB wrapping to LSB) are exact inverses on all
256 byte values, in both compositions. -/
theorem codec_byte_round_trip :
    ∀ b : Fin 256,
      decode_byte (encode_byte b.val) = b.val ∧
      encode_byte (decode_byte b.val) = b.val := by
  decide

/-! ## VersionInfo (`src/file/mod.rs` lines 18-47) -/

/-- The Unicode `White_Space` property, as used by Rust's `str::trim`
(`char::is_whitespace`). -/
def rust_is_whitespace (c : Char) : Bool :=
  c.val ∈ ([0x09, 0x0A, 0x0B, 0x0C, 0x0D, 0x20, 0x85, 0xA0, 0x1680,
    0x2000, 0x2001, 0x2002, 0x2003, 0x2004, 0x2005, 0x2006, 0x2007,
    0x2008, 0x2009, 0x200A, 0x2028, 0x2029, 0x202F, 0x205F, 0x3000] :
      List UInt32)

/-- Rust `str::trim`: strip leading and trailing whitespace. -/
def rust_trim (s : List Char) : List Char :=
  ((s.dropWhile rust_is_whitespace).reverse.dropWhile rust_is_whitespace).reverse

/-- Rust `str::split(':').collect::<Vec<_>>()`: split a character list at
every colon; `n` colons yield `n + 1` (possibly empty) parts. -/
def split_colon : List Char → List (List Char)
  | [] => [[]]
  | c :: rest =>
    if c = ':' then [] :: split_colon rest
    else
      match split_colon rest with
      | [] => [[c]]
      | p :: ps => (c :: p) :: ps

/-- `VersionInfo` (file/mod.rs lines 18-22): the stored version identity,
a version string plus the patcher secret it was installed from. -/
structure VersionInfo where
  version : List Char
  patcher_secret : List Char
  deriving DecidableEq, Repr

/-- `VersionInfo::from_string` (file/mod.rs lines 32-42): trim the line,
split on `:`; exactly two parts yield `patcher_secret` then `version`,
anything else yields `None`. -/
def VersionInfo.from_string (content : List Char) : Option VersionInfo :=
  let parts := split_colon (rust_trim content)
  if h : parts.length = 2 then
    some { patcher_secret := parts[0], version := parts[1] }
  else
    none

/-- `VersionInfo::to_string` (file/mod.rs lines 44-46):
`"<patcher_secret>:<version>"`. -/
def VersionInfo.to_string (v : VersionInfo) : List Char :=
  v.patcher_secret ++ ':' :: v.version

/-- `FileManager::get_current_version` (file/mod.rs lines 157-180),
abstracted over the contents of `version.txt`: `none` models a missing
file; a present file in an unparseable format also yields `none` (forces
redownload), never an error. -/
def get_current_version (content : Option (List Char)) : Option VersionInfo :=
  match content with
  | none => none
  | some c => VersionInfo.from_string c

/-- `FileManager::needs_update` (file/mod.rs lines 198-206), as a function
of the stored `version.txt` content: update is needed when no stored
version parses, or when either the version string or the patcher secret
differs. -/
def needs_update (content : Option (List Char)) (new_version new_patcher_secret : List Char) : Bool :=
  match get_current_version content with
  | some current_version =>
      (current_version.version != new_version) ||
      (current_version.patcher_secret != new_patcher_secret)
  | none => true

/-- C4: `needs_update` is true whenever no stored `VersionInfo` parses
from the version file (missing or unparseable), and for a parsed stored
identity it is false exactly when both the candidate version and the
candidate patcher secret equal the stored ones (so a change in either
field alone yields true). -/
theorem needs_update_spec :
    ∀ (content : Option (List Char)) (v s : List Char),
      (get_current_version content = none → needs_update content v s = true) ∧
      (∀ ci, get_current_version content = some ci →
        (needs_update content v s = false ↔ ci.version = v ∧ ci.patcher_secret = s)) := by
  intro content v s
  constructor
  · intro h
    simp [needs_update, h]
  · intro ci h
    simp [needs_update, h]

/-- Witness for C4 at concrete inputs: a missing version forces an
update, an exact match of both fields does not, and a patcher-secret
change alone does. -/
theorem needs_update_spec_witness :
    needs_update none ("1.0.0".toList) ("s1".toList) = true ∧
    needs_update (some ("s1:1.0.0".toList)) ("1.0.0".toList) ("s1".toList) = false ∧
    needs_update (some ("s1:1.0.0".toList)) ("1.0.0".toList) ("s2".toList) = true := by
  refine ⟨(needs_update_spec none _ _).1 rfl, ?_, ?_⟩
  · exact ((needs_update_spec (some ("s1:1.0.0".toList)) _ _).2
      ⟨"1.0.0".toList, "s1".toList⟩ (by decide)).mpr ⟨rfl, rfl⟩
  · rw [← Bool.not_eq_false]
    intro hf
    exact absurd (((needs_update_spec (some ("s1:1.0.0".toList)) _ _).2
      ⟨"1.0.0".toList, "s1".toList⟩ (by decide)).mp hf).2 (by decide)

theorem dropWhile_eq_self_of_head {p : Char → Bool} :
    ∀ {l : List Char}, (∀ c, l.head? = some c → p c = false) → l.dropWhile p = l := by
  intro l h
  cases l with
  | nil => rfl
  | cons c t => simp [List.dropWhile_cons, h c rfl]

theorem rust_trim_eq_self {s : List Char}
    (h1 : ∀ c, s.head? = some c → rust_is_whitespace c = false)
    (h2 : ∀ c, s.getLast? = some c → rust_is_whitespace c = false) :
    rust_trim s = s := by
  unfold rust_trim
  rw [dropWhile_eq_self_of_head h1]
  rw [dropWhile_eq_self_of_head (by simpa using h2)]
  exact s.reverse_reverse

theorem split_colon_of_not_mem : ∀ {b : List Char}, ':' ∉ b → split_colon b = [b] := by
  intro b h
  induction b with
  | nil => rfl
  | cons c t ih =>
    have hc : ¬(c = ':') := fun hh => h (hh ▸ List.mem_cons_self c t)
    have ht : ':' ∉ t := fun hh => h (List.mem_cons_of_mem c hh)
    simp [split_colon, hc, ih ht]

theorem split_colon_append : ∀ {a : List Char} (b : List Char), ':' ∉ a →
    split_colon (a ++ ':' :: b) = a :: split_colon b := by
  intro a
  induction a with
  | nil => intro b _; simp [split_colon]
  | cons c t ih =>
    intro b h
    have hc : ¬(c = ':') := fun hh => h (hh ▸ List.mem_cons_self c t)
    have ht : ':' ∉ t := fun hh => h (List.mem_cons_of_mem c hh)
    simp [split_colon, hc, ih b ht]

theorem split_colon_length (s : List Char) :
    (split_colon s).length = s.count ':' + 1 := by
  induction s with
  | nil => rfl
  | cons c t ih =>
    by_cases hc : c = ':'
    · subst hc; simp [split_colon, List.count_cons, ih]
    · cases h : split_colon t with
      | nil => rw [h] at ih; simp at ih
      | cons p ps =>
        rw [h] at ih
        simp only [List.length_cons] at ih
        simp [split_colon, hc, h, List.count_cons, ← ih]

theorem count_dropWhile_of_not {p : Char → Bool} {a : Char} (ha : p a = false) :
    ∀ l : List Char, (l.dropWhile p).count a = l.count a := by
  intro l
  induction l with
  | nil => rfl
  | cons c t ih =>
    by_cases hc : p c
    · have hne : ¬(c = a) := by
        intro hh
        rw [hh, ha] at hc
        exact absurd hc (by decide)
      simp [List.dropWhile_cons, hc, ih, List.count_cons, hne]
    · simp [List.dropWhile_cons, hc]

theorem count_colon_rust_trim (s : List Char) :
    (rust_trim s).count ':' = s.count ':' := by
  unfold rust_trim
  rw [List.count_reverse, count_dropWhile_of_not (by decide),
    List.count_reverse, count_dropWhile_of_not (by decide)]

/-- C5 (amended): `VersionInfo` round-trips through format then parse for
non-empty, colon-free patcher-secret and version strings, provided
additionally that the patcher secret does not begin with a whitespace
character and the version does not end with one (`from_string` trims the
line before splitting, so leading/trailing whitespace is not recovered);
and parsing any line whose character content does not contain exactly one
`:` yields `none`, never an error. -/
theorem version_identity_spec :
    (∀ vi : VersionInfo,
        vi.patcher_secret ≠ [] → vi.version ≠ [] →
        ':' ∉ vi.patcher_secret → ':' ∉ vi.version →
        (vi.patcher_secret.head?.all fun c => !rust_is_whitespace c) = true →
        (vi.version.getLast?.all fun c => !rust_is_whitespace c) = true →
        VersionInfo.from_string (VersionInfo.to_string vi) = some vi) ∧
    (∀ content : List Char, content.count ':' ≠ 1 →
        VersionInfo.from_string content = none) := by
  constructor
  · rintro ⟨ver, ps⟩ hne1 hne2 hc1 hc2 hws1 hws2
    simp only at hne1 hne2 hc1 hc2 hws1 hws2
    simp only [VersionInfo.to_string]
    have htrim : rust_trim (ps ++ ':' :: ver) = ps ++ ':' :: ver := by
      apply rust_trim_eq_self
      · intro c hc
        cases ps with
        | nil => exact absurd rfl hne1
        | cons p pt =>
          simp only [List.cons_append, List.head?_cons, Option.some.injEq] at hc
          subst hc
          simpa using hws1
      · intro c hcl
        rw [List.getLast?_append] at hcl
        cases ver with
        | nil => exact absurd rfl hne2
        | cons v vt =>
          rw [List.getLast?_cons_cons] at hcl
          obtain ⟨x, hx⟩ : ∃ x, (v :: vt).getLast? = some x :=
            Option.isSome_iff_exists.mp (List.getLast?_isSome.mpr (by simp))
          rw [hx] at hcl
          simp only [Option.or_some, Option.some.injEq] at hcl
          subst hcl
          rw [hx] at hws2
          simpa using hws2
    simp only [VersionInfo.from_string, htrim, split_colon_append ver hc1,
      split_colon_of_not_mem hc2]
    rfl
  · intro content hcount
    have hlen : (split_colon (rust_trim content)).length = content.count ':' + 1 := by
      rw [split_colon_length, count_colon_rust_trim]
    simp only [VersionInfo.from_string]
    rw [dif_neg]
    rw [hlen]
    omega

/-- Witness for C5 (amended) at concrete inputs: `"s1:1.0.0"` round-trips,
and a line with two separators parses to `none`. -/
theorem version_identity_spec_witness :
    VersionInfo.from_string (VersionInfo.to_string ⟨"1.0.0".toList, "s1".toList⟩) =
      some ⟨"1.0.0".toList, "s1".toList⟩ ∧
    VersionInfo.from_string ("too:many:parts".toList) = none :=
  ⟨version_identity_spec.1 ⟨"1.0.0".toList, "s1".toList⟩ (by decide) (by decide)
      (by decide) (by decide) (by decide) (by decide),
   version_identity_spec.2 _ (by decide)⟩

/-- C5 counterexample: the round-trip fails as stated for the non-empty,
colon-free patcher secret `" x"` (leading space) with version `"y"`:
`from_string` trims the formatted line, so the parsed identity differs
from the original. -/
theorem version_identity_counterexample :
    VersionInfo.from_string (VersionInfo.to_string ⟨"y".toList, ' ' :: "x".toList⟩) ≠
      some ⟨"y".toList, ' ' :: "x".toList⟩ := by
  decide

/-! ## ManifestResolver (`src/manifest/mod.rs`) -/

/-- The placeholder string built for a variable key at manifest/mod.rs
line 60 (Rust `format!` producing an opening brace, the key, and a
closing brace). -/
def placeholder (key : List Char) : List Char :=
  '\x7b' :: key ++ ['\x7d']

/-- Helper for `str_replace`: the same scan with an explicit fuel bound so
that the recursion is structural (the fuel is instantiated with the input
length, which always suffices: every step consumes at least one input
character). -/
def replace_fuel (pat rep : List Char) : Nat → List Char → List Char
  | _, [] => []
  | 0, s => s
  | fuel + 1, c :: rest =>
    if pat ≠ [] ∧ pat <+: (c :: rest) then
      rep ++ replace_fuel pat rep fuel ((c :: rest).drop pat.length)
    else
      c :: replace_fuel pat rep fuel rest

/-- Rust `str::replace` as used at manifest/mod.rs line 61: scan the
input left to right, replacing every non-overlapping occurrence of `pat`
by `rep` and continuing the scan after the replaced occurrence, so text
inserted by this pass is never rescanned by the same pass.  (For an empty
`pat` this model is the identity whereas Rust inserts `rep` at every
boundary; `resolve_variables` only ever passes the nonempty pattern
`placeholder key`, on which the two agree.)  `str_replace_cons` below
restates the scanning step. -/
def str_replace (pat rep s : List Char) : List Char :=
  replace_fuel pat rep s.length s

/-- `ManifestManager::resolve_variables` (manifest/mod.rs lines 56-72),
with the iteration over the `variables` `HashMap` made explicit as a list
of key/value pairs in iteration order (Rust's `HashMap` iteration order
is unspecified): one full-string `replace` pass per variable, applied
sequentially to the evolving result, followed by the unresolved check —
an error exactly when the final string contains both an opening and a
closing brace character. -/
def resolve_variables (vars : List (List Char × List Char))
    (input : List Char) : Except Err (List Char) :=
  let result := vars.foldl
    (fun result kv => str_replace (placeholder kv.1) kv.2 result) input
  if result.contains '\x7b' && result.contains '\x7d' then
    Except.error (Err.manifest "Unresolved variables in manifest")
  else
    Except.ok result

/-- `ManifestManager::get_target` (manifest/mod.rs lines 38-41): resolve
the manifest's `target` template (`PathBuf::from` is the identity on the
string content). -/
def get_target (vars : List (List Char × List Char))
    (target : List Char) : Except Err (List Char) :=
  resolve_variables vars target

/-- `ManifestManager::get_arguments` (manifest/mod.rs lines 43-54):
resolve every value of every argument group in order, preserving group
order and within-group order (the nested iteration visits exactly the
flattened sequence of values). -/
def get_arguments (vars : List (List Char × List Char))
    (target_arguments : List (List (List Char))) : Except Err (List (List Char)) :=
  target_arguments.flatten.mapM (resolve_variables vars)

theorem replace_fuel_nil (pat rep : List Char) (f : Nat) :
    replace_fuel pat rep f [] = [] := by
  cases f <;> rfl

theorem replace_fuel_congr (pat rep : List Char) :
    ∀ (f1 f2 : Nat) (s : List Char), s.length ≤ f1 → s.length ≤ f2 →
      replace_fuel pat rep f1 s = replace_fuel pat rep f2 s := by
  intro f1
  induction f1 with
  | zero =>
    intro f2 s h1 _
    have hs : s = [] := List.eq_nil_of_length_eq_zero (Nat.le_zero.mp h1)
    subst hs
    rw [replace_fuel_nil, replace_fuel_nil]
  | succ f ih =>
    intro f2 s h1 h2
    cases s with
    | nil => rw [replace_fuel_nil, replace_fuel_nil]
    | cons c rest =>
      cases f2 with
      | zero => simp at h2
      | succ g =>
        simp only [replace_fuel]
        by_cases h : pat ≠ [] ∧ pat <+: (c :: rest)
        · rw [if_pos h, if_pos h]
          have hp : 0 < pat.length := List.length_pos.mpr h.1
          have hlen : ((c :: rest).drop pat.length).length ≤ f := by
            simp only [List.length_drop, List.length_cons]
            simp only [List.length_cons] at h1
            omega
          have hlen2 : ((c :: rest).drop pat.length).length ≤ g := by
            simp only [List.length_drop, List.length_cons]
            simp only [List.length_cons] at h2
            omega
          rw [ih g _ hlen hlen2]
        · rw [if_neg h, if_neg h]
          simp only [List.length_cons] at h1 h2
          rw [ih g rest (by omega) (by omega)]

theorem str_replace_nil (pat rep : List Char) : str_replace pat rep [] = [] :=
  rfl

/-- The one-step scanning behaviour of `str_replace`: at each position,
either the pattern matches and is replaced (the scan resumes after the
match), or the current character is copied unchanged. -/
theorem str_replace_cons (pat rep : List Char) (c : Char) (rest : List Char) :
    str_replace pat rep (c :: rest) =
      if pat ≠ [] ∧ pat <+: (c :: rest) then
        rep ++ str_replace pat rep ((c :: rest).drop pat.length)
      else
        c :: str_replace pat rep rest := by
  have step : replace_fuel pat rep (rest.length + 1) (c :: rest) =
      if pat ≠ [] ∧ pat <+: (c :: rest) then
        rep ++ replace_fuel pat rep rest.length ((c :: rest).drop pat.length)
      else
        c :: replace_fuel pat rep rest.length rest := rfl
  show replace_fuel pat rep (c :: rest).length (c :: rest) = _
  simp only [List.length_cons]
  rw [step]
  by_cases h : pat ≠ [] ∧ pat <+: (c :: rest)
  · rw [if_pos h, if_pos h]
    have hp : 0 < pat.length := List.length_pos.mpr h.1
    have hd : ((c :: rest).drop pat.length).length ≤ rest.length := by
      simp only [List.length_drop, List.length_cons]
      omega
    rw [replace_fuel_congr pat rep rest.length ((c :: rest).drop pat.length).length _ hd
      (le_refl _)]
    rfl
  · rw [if_neg h, if_neg h]
    rfl

/-- A template string decomposed into plain text and placeholders; used
to state what substitution does on templates whose structure is known.
`render_template` maps it back to the raw character string the code
operates on. -/
inductive Seg where
  | lit (l : List Char)
  | var (n : List Char)
  deriving DecidableEq, Repr

/-- Render a segment: literal text verbatim, a variable as its
placeholder. -/
def Seg.render : Seg → List Char
  | .lit l => l
  | .var n => placeholder n

/-- Render a decomposed template to the raw string. -/
def render_template (segs : List Seg) : List Char :=
  (segs.map Seg.render).flatten

/-- A string containing neither an opening nor a closing brace. -/
def brace_free (l : List Char) : Bool :=
  !l.contains '\x7b' && !l.contains '\x7d'

/-- Well-formed segment: its text (literal content or variable name)
contains no brace characters. -/
def Seg.wf : Seg → Bool
  | .lit l => brace_free l
  | .var n => brace_free n

/-- Well-formed decomposed template: every segment is well formed. -/
def wf_template (segs : List Seg) : Bool :=
  segs.all Seg.wf

/-- Well-formed variable context: every key and every value is free of
brace characters. -/
def wf_vars (vars : List (List Char × List Char)) : Bool :=
  vars.all fun kv => brace_free kv.1 && brace_free kv.2

/-- A segment is bound by the context: literals always, a variable when
some key equals its name. -/
def seg_bound (vars : List (List Char × List Char)) : Seg → Bool
  | .lit _ => true
  | .var n => vars.any fun kv => kv.1 == n

/-- Effect of one `replace` pass for key `k`, value `v`, on a decomposed
template: every placeholder of `k` becomes literal text `v`. -/
def apply_var (k v : List Char) (segs : List Seg) : List Seg :=
  segs.map fun s =>
    match s with
    | .var n => if n = k then .lit v else .var n
    | .lit l => .lit l

/-- Effect of the sequential passes for a whole context, in iteration
order. -/
def apply_vars (vars : List (List Char × List Char)) (segs : List Seg) : List Seg :=
  vars.foldl (fun segs kv => apply_var kv.1 kv.2 segs) segs

theorem render_template_cons (s : Seg) (rest : List Seg) :
    render_template (s :: rest) = s.render ++ render_template rest := by
  simp [render_template]

theorem brace_free_iff {l : List Char} :
    brace_free l = true ↔ '\x7b' ∉ l ∧ '\x7d' ∉ l := by
  simp [brace_free, List.contains]

/-- A scan whose pattern starts with a character absent from `l` finds no
match inside `l`: the scan copies `l` and continues on `s`. -/
theorem str_replace_append_not_head (pat rep : List Char)
    (hhead : ∀ x, pat.head? = some x → x ∉ l) (s : List Char) :
    str_replace pat rep (l ++ s) = l ++ str_replace pat rep s := by
  induction l with
  | nil => simp
  | cons c l2 ih =>
    have hnp : ¬(pat ≠ [] ∧ pat <+: (c :: (l2 ++ s))) := by
      rintro ⟨hne, t, ht⟩
      cases pat with
      | nil => exact hne rfl
      | cons p pt =>
        have hp : p = c := by
          have := congrArg List.head? ht
          simpa using this
        exact hhead p rfl (hp ▸ List.mem_cons_self c l2)
    rw [List.cons_append, str_replace_cons, if_neg hnp]
    rw [ih fun x hx hmem => hhead x hx (List.mem_cons_of_mem c hmem)]
    rfl

/-- A scan standing exactly at an occurrence of the pattern replaces it
and resumes after it. -/
theorem str_replace_head_match (pat rep s : List Char) (hne : pat ≠ []) :
    str_replace pat rep (pat ++ s) = rep ++ str_replace pat rep s := by
  cases pat with
  | nil => exact absurd rfl hne
  | cons p pt =>
    rw [List.cons_append, str_replace_cons,
      if_pos ⟨hne, by rw [← List.cons_append]; exact List.prefix_append _ _⟩]
    congr 1
    have hd : (p :: (pt ++ s)).drop (p :: pt).length = s := by
      simp only [List.length_cons, List.drop_succ_cons]
      exact List.drop_left pt s
    rw [hd]

/-- If `k ++ closing-brace` is a prefix of `j ++ closing-brace ++ s` and
neither name contains a closing brace, the names coincide: a placeholder
cannot match across the end of a different placeholder. -/
theorem closing_unique :
    ∀ (k j s : List Char), '\x7d' ∉ k → '\x7d' ∉ j →
      (k ++ ['\x7d']) <+: (j ++ '\x7d' :: s) → k = j := by
  intro k
  induction k with
  | nil =>
    intro j s _ hj ⟨t, ht⟩
    cases j with
    | nil => rfl
    | cons c j2 =>
      exfalso
      have hc : '\x7d' = c := by
        have := congrArg List.head? ht
        simpa using this
      exact hj (hc ▸ List.mem_cons_self c j2)
  | cons a k2 ih =>
    intro j s hk hj ⟨t, ht⟩
    cases j with
    | nil =>
      exfalso
      have ha : a = '\x7d' := by
        have := congrArg List.head? ht
        simpa using this
      exact hk (ha ▸ List.mem_cons_self a k2)
    | cons c j2 =>
      have hhead : a = c := by
        have := congrArg List.head? ht
        simpa using this
      have htail : k2 ++ ['\x7d'] ++ t = j2 ++ '\x7d' :: s := by
        have := congrArg List.tail ht
        simpa using this
      have hk2 : k2 = j2 :=
        ih j2 s (fun h => hk (List.mem_cons_of_mem a h))
          (fun h => hj (List.mem_cons_of_mem c h)) ⟨t, htail⟩
      rw [hhead, hk2]

/-- The placeholder of `k` does not match at the start of the rendering
of a different variable `j` (names brace-free). -/
theorem placeholder_no_match {k j : List Char} (s : List Char)
    (hk : '\x7d' ∉ k) (hj : '\x7d' ∉ j) (hne : j ≠ k) :
    ¬ placeholder k <+: ('\x7b' :: (j ++ '\x7d' :: s)) := by
  rintro ⟨t, ht⟩
  simp only [placeholder, List.cons_append, List.append_assoc] at ht
  have htail : (k ++ ['\x7d']) ++ t = j ++ '\x7d' :: s := by
    have := congrArg List.tail ht
    simpa [List.append_assoc] using this
  exact hne (closing_unique k j s hk hj ⟨t, htail⟩).symm

/-- Scanning the rendering of a different variable `j` with the pattern
for `k`: no match starts anywhere inside it, so it is copied verbatim and
the scan continues on `s`. -/
theorem str_replace_var_other {k j : List Char} (rep s : List Char)
    (hk : brace_free k = true) (hj : brace_free j = true) (hne : j ≠ k) :
    str_replace (placeholder k) rep (placeholder j ++ s) =
      placeholder j ++ str_replace (placeholder k) rep s := by
  obtain ⟨hk1, hk2⟩ := brace_free_iff.mp hk
  obtain ⟨hj1, hj2⟩ := brace_free_iff.mp hj
  have hshape : placeholder j ++ s = '\x7b' :: (j ++ '\x7d' :: s) := by
    simp [placeholder]
  rw [hshape, str_replace_cons,
    if_neg fun h => placeholder_no_match s hk2 hj2 hne h.2]
  have hstep : str_replace (placeholder k) rep (j ++ '\x7d' :: s) =
      j ++ str_replace (placeholder k) rep ('\x7d' :: s) := by
    apply str_replace_append_not_head
    intro x hx
    have hxb : '\x7b' = x := by simpa [placeholder] using hx
    rw [← hxb]
    exact hj1
  rw [hstep, str_replace_cons, if_neg]
  · simp [placeholder]
  · rintro ⟨_, t, ht⟩
    have hcontra := congrArg List.head? ht
    simp [placeholder] at hcontra

/-- One `replace` pass for variable `k` on a rendered well-formed
template rewrites exactly the placeholders of `k`, leaving everything
else verbatim. -/
theorem str_replace_render (k v : List Char) (hk : brace_free k = true) :
    ∀ segs : List Seg, wf_template segs = true →
      str_replace (placeholder k) v (render_template segs) =
        render_template (apply_var k v segs) := by
  intro segs
  induction segs with
  | nil => intro _; rfl
  | cons s rest ih =>
    intro hwf
    rw [wf_template, List.all_cons, Bool.and_eq_true] at hwf
    obtain ⟨hs, hrest⟩ := hwf
    cases s with
    | lit l =>
      rw [render_template_cons, Seg.render]
      rw [str_replace_append_not_head (placeholder k) v ?hd (render_template rest)]
      case hd =>
        intro x hx
        have hxb : '\x7b' = x := by simpa [placeholder] using hx
        rw [← hxb]
        exact (brace_free_iff.mp hs).1
      rw [ih hrest]
      simp [apply_var, render_template_cons, Seg.render]
    | var n =>
      by_cases hn : n = k
      · subst hn
        rw [render_template_cons, Seg.render]
        rw [str_replace_head_match (placeholder n) v (render_template rest)
          (by simp [placeholder])]
        rw [ih hrest]
        simp [apply_var, render_template_cons, Seg.render]
      · rw [render_template_cons, Seg.render]
        rw [str_replace_var_other v (render_template rest) hk hs hn]
        rw [ih hrest]
        simp [apply_var, render_template_cons, Seg.render, hn]

/-- One pass preserves template well-formedness when the substituted
value is brace-free. -/
theorem apply_var_wf {k v : List Char} (hv : brace_free v = true) :
    ∀ segs : List Seg, wf_template segs = true →
      wf_template (apply_var k v segs) = true := by
  intro segs
  induction segs with
  | nil => intro _; rfl
  | cons s rest ih =>
    intro hwf
    rw [wf_template, List.all_cons, Bool.and_eq_true] at hwf
    obtain ⟨hs, hrest⟩ := hwf
    cases s with
    | lit l =>
      rw [apply_var, List.map_cons, wf_template, List.all_cons, Bool.and_eq_true]
      exact ⟨hs, ih hrest⟩
    | var n =>
      rw [apply_var, List.map_cons, wf_template, List.all_cons]
      rw [Bool.and_eq_true]
      by_cases hn : n = k
      · simp only [hn, if_pos rfl]
        exact ⟨hv, ih hrest⟩
      · simp only [if_neg hn]
        exact ⟨hs, ih hrest⟩

/-- The whole sequential substitution fold of `resolve_variables`, on a
rendered well-formed template with a well-formed context, renders the
segment-level substitution `apply_vars`. -/
theorem subst_fold :
    ∀ (vars : List (List Char × List Char)) (segs : List Seg),
      wf_vars vars = true → wf_template segs = true →
      vars.foldl (fun r kv => str_replace (placeholder kv.1) kv.2 r)
          (render_template segs) =
        render_template (apply_vars vars segs) := by
  intro vars
  induction vars with
  | nil => intro segs _ _; rfl
  | cons kv rest ih =>
    intro segs hv hw
    rw [wf_vars, List.all_cons, Bool.and_eq_true, Bool.and_eq_true] at hv
    obtain ⟨⟨hk, hval⟩, hrest⟩ := hv
    rw [List.foldl_cons]
    rw [str_replace_render kv.1 kv.2 hk segs hw]
    rw [ih (apply_var kv.1 kv.2 segs) hrest (apply_var_wf hval segs hw)]
    rfl

theorem var_mem_apply_var {n k v : List Char} {segs : List Seg} :
    Seg.var n ∈ apply_var k v segs ↔ Seg.var n ∈ segs ∧ n ≠ k := by
  induction segs with
  | nil => simp [apply_var]
  | cons s rest ih =>
    rw [apply_var, List.map_cons]
    cases s with
    | lit l =>
      simp only [List.mem_cons]
      rw [apply_var] at ih
      constructor
      · rintro (h | h)
        · exact absurd h (by simp)
        · have := ih.mp h
          exact ⟨Or.inr this.1, this.2⟩
      · rintro ⟨h | h, hne⟩
        · exact absurd h (by simp)
        · exact Or.inr (ih.mpr ⟨h, hne⟩)
    | var m =>
      by_cases hm : m = k
      · simp only [if_pos hm, List.mem_cons]
        rw [apply_var] at ih
        constructor
        · rintro (h | h)
          · exact absurd h (by simp)
          · have := ih.mp h
            exact ⟨Or.inr this.1, this.2⟩
        · rintro ⟨h | h, hne⟩
          · rw [Seg.var.injEq] at h
            exact absurd (h ▸ hm) hne
          · exact Or.inr (ih.mpr ⟨h, hne⟩)
      · simp only [if_neg hm, List.mem_cons]
        rw [apply_var] at ih
        constructor
        · rintro (h | h)
          · rw [Seg.var.injEq] at h
            subst h
            exact ⟨Or.inl rfl, hm⟩
          · have := ih.mp h
            exact ⟨Or.inr this.1, this.2⟩
        · rintro ⟨h | h, hne⟩
          · rw [Seg.var.injEq] at h
            exact Or.inl (by rw [h])
          · exact Or.inr (ih.mpr ⟨h, hne⟩)

theorem var_mem_apply_vars {n : List Char} :
    ∀ (vars : List (List Char × List Char)) (segs : List Seg),
      (Seg.var n ∈ apply_vars vars segs ↔
        Seg.var n ∈ segs ∧ ∀ kv ∈ vars, n ≠ kv.1) := by
  intro vars
  induction vars with
  | nil => intro segs; simp [apply_vars]
  | cons kv rest ih =>
    intro segs
    have hstep : apply_vars (kv :: rest) segs = apply_vars rest (apply_var kv.1 kv.2 segs) :=
      rfl
    rw [hstep, ih (apply_var kv.1 kv.2 segs), var_mem_apply_var]
    constructor
    · rintro ⟨⟨hmem, hne⟩, hrest⟩
      refine ⟨hmem, ?_⟩
      intro kv2 hkv2
      rcases List.mem_cons.mp hkv2 with h | h
      · rw [h]; exact hne
      · exact hrest kv2 h
    · rintro ⟨hmem, hall⟩
      exact ⟨⟨hmem, hall kv (List.mem_cons_self kv rest)⟩,
        fun kv2 h => hall kv2 (List.mem_cons_of_mem kv h)⟩

/-- The rendering of a well-formed template containing no variables is
brace-free. -/
theorem render_brace_free :
    ∀ segs : List Seg, wf_template segs = true → (∀ n, Seg.var n ∉ segs) →
      brace_free (render_template segs) = true := by
  intro segs
  induction segs with
  | nil => intro _ _; rfl
  | cons s rest ih =>
    intro hwf hnov
    rw [wf_template, List.all_cons, Bool.and_eq_true] at hwf
    obtain ⟨hs, hrest⟩ := hwf
    cases s with
    | lit l =>
      rw [render_template_cons, Seg.render, brace_free_iff]
      have hl := brace_free_iff.mp hs
      have hr := brace_free_iff.mp
        (ih hrest fun n hn => hnov n (List.mem_cons_of_mem _ hn))
      constructor
      · intro hmem
        rcases List.mem_append.mp hmem with h | h
        · exact hl.1 h
        · exact hr.1 h
      · intro hmem
        rcases List.mem_append.mp hmem with h | h
        · exact hl.2 h
        · exact hr.2 h
    | var n => exact absurd (List.mem_cons_self _ _) (hnov n)

/-- A template containing a variable renders to a string that contains
both brace characters. -/
theorem render_has_braces {n : List Char} :
    ∀ segs : List Seg, Seg.var n ∈ segs →
      '\x7b' ∈ render_template segs ∧ '\x7d' ∈ render_template segs := by
  intro segs
  induction segs with
  | nil => intro h; exact absurd h (List.not_mem_nil _)
  | cons s rest ih =>
    intro hmem
    rw [render_template_cons]
    rcases List.mem_cons.mp hmem with h | h
    · subst h
      constructor
      · exact List.mem_append.mpr (Or.inl (by simp [Seg.render, placeholder]))
      · exact List.mem_append.mpr (Or.inl (by simp [Seg.render, placeholder]))
    · have := ih h
      exact ⟨List.mem_append.mpr (Or.inr this.1), List.mem_append.mpr (Or.inr this.2)⟩

theorem apply_vars_wf :
    ∀ (vars : List (List Char × List Char)) (segs : List Seg),
      wf_vars vars = true → wf_template segs = true →
      wf_template (apply_vars vars segs) = true := by
  intro vars
  induction vars with
  | nil => intro segs _ hw; exact hw
  | cons kv rest ih =>
    intro segs hv hw
    rw [wf_vars, List.all_cons, Bool.and_eq_true, Bool.and_eq_true] at hv
    exact ih (apply_var kv.1 kv.2 segs) hv.2 (apply_var_wf hv.1.2 segs hw)

/-- C3 (amended): on a template decomposed into brace-free literal text
and placeholders, with a context of brace-free keys and values,
`resolve_variables` (the substitution engine shared by `get_target` and
`get_arguments`) succeeds with the literally substituted string exactly
when every placeholder name is bound by the context, and fails with the
manifest error `"Unresolved variables in manifest"` when some placeholder
is unbound.  (In general the code's check is on characters, not
placeholders: it errors whenever the substituted string contains both an
opening and a closing brace, so brace characters in literal text or in
substituted values can fail a fully bound template — see the
counterexample.) -/
theorem resolve_variables_spec :
    ∀ (vars : List (List Char × List Char)) (segs : List Seg),
      wf_template segs = true → wf_vars vars = true →
      (segs.all (seg_bound vars) = true →
        resolve_variables vars (render_template segs) =
          Except.ok (render_template (apply_vars vars segs))) ∧
      (segs.all (seg_bound vars) = false →
        resolve_variables vars (render_template segs) =
          Except.error (Err.manifest "Unresolved variables in manifest")) := by
  intro vars segs hw hv
  have hfold := subst_fold vars segs hv hw
  constructor
  · intro hb
    have hnov : ∀ n, Seg.var n ∉ apply_vars vars segs := by
      intro n hmem
      obtain ⟨hmem0, hall⟩ := (var_mem_apply_vars vars segs).mp hmem
      have hbn := List.all_eq_true.mp hb _ hmem0
      rw [seg_bound] at hbn
      obtain ⟨kv, hkv, hbeq⟩ := List.any_eq_true.mp hbn
      have hk1 : kv.1 = n := by simpa using hbeq
      exact hall kv hkv hk1.symm
    have hbf := brace_free_iff.mp
      (render_brace_free _ (apply_vars_wf vars segs hv hw) hnov)
    simp only [resolve_variables, hfold]
    rw [if_neg]
    intro hcond
    rw [Bool.and_eq_true] at hcond
    exact hbf.1 (List.elem_iff.mp hcond.1)
  · intro hnb
    obtain ⟨s, hmem, hsb⟩ := List.all_eq_false.mp hnb
    cases s with
    | lit l => exact absurd rfl hsb
    | var n =>
      have hall : ∀ kv ∈ vars, n ≠ kv.1 := by
        intro kv hkv
        rw [seg_bound, Bool.not_eq_true] at hsb
        have := List.any_eq_false.mp hsb kv hkv
        intro hn
        exact this (by simp [hn])
      have hmem2 : Seg.var n ∈ apply_vars vars segs :=
        (var_mem_apply_vars vars segs).mpr ⟨hmem, hall⟩
      have hbr := render_has_braces _ hmem2
      simp only [resolve_variables, hfold]
      rw [if_pos]
      rw [Bool.and_eq_true]
      exact ⟨List.elem_iff.mpr hbr.1, List.elem_iff.mpr hbr.2⟩

/-- Witness for C3 (amended) at concrete inputs: the spec's example
template (placeholder for `exedir` followed by literal `/App.exe`) with
`exedir` bound to `/opt/x` resolves to `/opt/x/App.exe`, and a template
consisting of one unbound placeholder fails with the manifest error. -/
theorem resolve_variables_spec_witness :
    resolve_variables [("exedir".toList, "/opt/x".toList)]
        (render_template [Seg.var "exedir".toList, Seg.lit "/App.exe".toList]) =
      Except.ok ("/opt/x/App.exe".toList) ∧
    resolve_variables [] (render_template [Seg.var "a".toList]) =
      Except.error (Err.manifest "Unresolved variables in manifest") := by
  constructor
  · have h := (resolve_variables_spec [("exedir".toList, "/opt/x".toList)]
      [Seg.var "exedir".toList, Seg.lit "/App.exe".toList] (by decide) (by decide)).1
      (by decide)
    rw [h]
    rfl
  · exact (resolve_variables_spec [] [Seg.var "a".toList] (by decide) (by decide)).2
      (by decide)

/-- C3 counterexample: the claim's "succeed, producing the literal
substituted values, when all placeholders are bound" is false as stated.
The template consisting solely of the literal text `"\x7d\x7b"` contains
no placeholder at all — so trivially every placeholder is bound — yet
resolution fails with the manifest error, because the unresolved check
only looks for the presence of both brace characters. -/
theorem resolve_unresolved_counterexample :
    ([Seg.lit ("\x7d\x7b".toList)].all (seg_bound []) = true) ∧
    resolve_variables [] (render_template [Seg.lit ("\x7d\x7b".toList)]) =
      Except.error (Err.manifest "Unresolved variables in manifest") := by
  exact ⟨by decide, rfl⟩

/-- C2 (amended): substitution is one full-string replace pass per bound
variable, applied sequentially in the context's iteration order; a pass
never rescans its own replacement text, but values substituted by earlier
passes are rescanned by the passes of variables that come later in the
iteration order.  Concretely, for distinct brace-free names `a`, `b` and
a brace-free value `w`, with `a` bound to the placeholder of `b` and `b`
bound to `w`: resolving the template consisting of `a`'s placeholder
yields `w` when `a` is iterated before `b` (the embedded placeholder is
substituted by the later pass), and fails with the manifest error when
`b` is iterated first (the embedded placeholder survives, and passes are
never revisited). -/
theorem resolve_variables_sequential :
    ∀ a b w : List Char, a ≠ b →
      brace_free a = true → brace_free b = true → brace_free w = true →
      resolve_variables [(a, placeholder b), (b, w)] (placeholder a) =
        Except.ok w ∧
      resolve_variables [(b, w), (a, placeholder b)] (placeholder a) =
        Except.error (Err.manifest "Unresolved variables in manifest") := by
  intro a b w hne ha hb hw
  have hsra : str_replace (placeholder a) (placeholder b) (placeholder a) =
      placeholder b := by
    have h := str_replace_head_match (placeholder a) (placeholder b) []
      (by simp [placeholder])
    simpa [str_replace_nil] using h
  have hsrb : str_replace (placeholder b) w (placeholder b) = w := by
    have h := str_replace_head_match (placeholder b) w [] (by simp [placeholder])
    simpa [str_replace_nil] using h
  have hskip : str_replace (placeholder b) w (placeholder a) = placeholder a := by
    have h := str_replace_var_other w [] hb ha hne
    simpa [str_replace_nil] using h
  constructor
  · simp only [resolve_variables, List.foldl_cons, List.foldl_nil, hsra, hsrb]
    rw [if_neg]
    intro hcond
    rw [Bool.and_eq_true] at hcond
    exact (brace_free_iff.mp hw).1 (List.elem_iff.mp hcond.1)
  · simp only [resolve_variables, List.foldl_cons, List.foldl_nil, hskip, hsra]
    rw [if_pos]
    rw [Bool.and_eq_true]
    constructor
    · exact List.elem_iff.mpr (by simp [placeholder])
    · exact List.elem_iff.mpr (by simp [placeholder])

/-- Witness for C2 (amended) at concrete inputs, names `a`, `b` and value
`X`. -/
theorem resolve_variables_sequential_witness :
    resolve_variables [("a".toList, placeholder ("b".toList)), ("b".toList, "X".toList)]
        (placeholder ("a".toList)) = Except.ok ("X".toList) ∧
    resolve_variables [("b".toList, "X".toList), ("a".toList, placeholder ("b".toList))]
        (placeholder ("a".toList)) =
      Except.error (Err.manifest "Unresolved variables in manifest") :=
  resolve_variables_sequential ("a".toList) ("b".toList) ("X".toList)
    (by decide) (by decide) (by decide) (by decide)

/-- C2 counterexample: with the bound variables `a` (value: the
placeholder of `b`) and `b` (value `X`), iterated in that order, the
template consisting of `a`'s placeholder resolves to `X`: the value
substituted for `a` is rescanned by the later pass for `b`, so the
embedded placeholder does not remain in the result, contrary to the
claim. -/
theorem resolve_rescan_counterexample :
    resolve_variables [("a".toList, "\x7bb\x7d".toList), ("b".toList, "X".toList)]
        ("\x7ba\x7d".toList) = Except.ok ("X".toList) := rfl

/-! ## FileManager.extract_zip (`src/file/mod.rs` lines 208-247) -/

/-- An archive entry as `extract_zip` sees it: its output path (the
`mangled_name`, as a list of components) and whether it is a directory
entry (the code tests whether the stored name ends in a slash). -/
structure ZEntry where
  path : List String
  is_dir : Bool
  deriving DecidableEq, Repr

/-- The nonempty prefixes of a path, shallowest first: exactly the chain
of directories `fs::create_dir_all` ensures, ending with the path
itself. -/
def ancestors : List String → List (List String)
  | [] => []
  | c :: rest => [c] :: (ancestors rest).map (c :: ·)

/-- State threaded through the extraction loop: the set of filesystem
paths that exist (model of the disk), the in-memory ledger
(`installed_files`), and the list of paths actually created so far, in
creation order. -/
structure ExtractState where
  fs : List (List String)
  ledger : List (List String)
  created : List (List String)
  deriving DecidableEq, Repr

/-- `fs::create_dir_all`: create every missing ancestor of `p`,
shallowest first; returns the new filesystem and the created paths in
creation order. -/
def create_dir_all (p : List String) (fs : List (List String)) :
    List (List String) × List (List String) :=
  let need := (ancestors p).filter fun q => !fs.contains q
  (fs ++ need, need)

/-- One iteration of the `extract_zip` loop (file/mod.rs lines 215-241):
a directory entry gets `create_dir_all`; a file entry gets
`create_dir_all` on its parent and then `File::create` (which makes the
file exist; an already existing file is truncated, not created).  In both
cases the entry's output path — and only it — is pushed onto the ledger.
The macOS executable-permission branch does not affect paths or the
ledger and is not modelled. -/
def extract_entry (dest : List String) (st : ExtractState) (e : ZEntry) : ExtractState :=
  let outpath := dest ++ e.path
  if e.is_dir then
    let r := create_dir_all outpath st.fs
    { fs := r.1, ledger := st.ledger ++ [outpath], created := st.created ++ r.2 }
  else
    let r := create_dir_all outpath.dropLast st.fs
    if r.1.contains outpath then
      { fs := r.1, ledger := st.ledger ++ [outpath], created := st.created ++ r.2 }
    else
      { fs := r.1 ++ [outpath], ledger := st.ledger ++ [outpath],
        created := st.created ++ r.2 ++ [outpath] }

/-- `FileManager::extract_zip` (file/mod.rs lines 208-247) over the
abstract archive: clear the in-memory ledger, then process the entries in
their stored order against the initial filesystem `fs0`.  On success the
resulting ledger is what `save_installed_files` persists. -/
def extract_zip (dest : List String) (entries : List ZEntry)
    (fs0 : List (List String)) : ExtractState :=
  entries.foldl (extract_entry dest) ⟨fs0, [], []⟩

theorem ancestors_length_le :
    ∀ (p : List String) (q : List String), q ∈ ancestors p → q.length ≤ p.length := by
  intro p
  induction p with
  | nil => intro q h; exact absurd h (List.not_mem_nil q)
  | cons c rest ih =>
    intro q h
    rcases List.mem_cons.mp h with h1 | h1
    · subst h1; simp
    · obtain ⟨q2, hq2, rfl⟩ := List.mem_map.mp h1
      have := ih q2 hq2
      simp only [List.length_cons]
      omega

theorem ancestors_dropLast :
    ∀ p : List String, p ≠ [] → ancestors p = ancestors p.dropLast ++ [p] := by
  intro p
  induction p with
  | nil => intro h; exact absurd rfl h
  | cons c rest ih =>
    intro _
    cases rest with
    | nil => rfl
    | cons d t =>
      have hr := ih (by simp)
      rw [ancestors, hr]
      simp [ancestors, List.map_append]

theorem mem_filter_not_contains {p : List String} {l fs : List (List String)} :
    p ∈ l.filter (fun q => !fs.contains q) ↔ p ∈ l ∧ p ∉ fs := by
  simp [List.mem_filter]

/-- Both branches of the extraction loop body reduce to the same shape:
append the entry's missing ancestor chain to the filesystem and to the
created list, and push exactly the entry's output path onto the
ledger. -/
theorem extract_entry_eq (dest : List String) (st : ExtractState) (e : ZEntry)
    (he : e.path ≠ []) :
    extract_entry dest st e =
      { fs := st.fs ++ (ancestors (dest ++ e.path)).filter (fun q => !st.fs.contains q),
        ledger := st.ledger ++ [dest ++ e.path],
        created :=
          st.created ++ (ancestors (dest ++ e.path)).filter (fun q => !st.fs.contains q) } := by
  have hout : dest ++ e.path ≠ [] := fun h => he (List.append_eq_nil.mp h).2
  cases hdir : e.is_dir
  · have hsplit : ancestors (dest ++ e.path) =
        ancestors (dest ++ e.path).dropLast ++ [dest ++ e.path] :=
      ancestors_dropLast _ hout
    have hnm : dest ++ e.path ∉
        (ancestors (dest ++ e.path).dropLast).filter (fun q => !st.fs.contains q) := by
      intro hmem
      have hlen := ancestors_length_le _ _ (List.mem_of_mem_filter hmem)
      have hpos : 0 < (dest ++ e.path).length := List.length_pos.mpr hout
      rw [List.length_dropLast] at hlen
      omega
    rw [extract_entry]
    simp only [hdir, Bool.false_eq_true, if_false, create_dir_all]
    by_cases hfs : (dest ++ e.path) ∈ st.fs
    · have hc : (st.fs ++ (ancestors (dest ++ e.path).dropLast).filter
          (fun q => !st.fs.contains q)).contains (dest ++ e.path) = true := by
        rw [List.elem_iff]
        exact List.mem_append.mpr (Or.inl hfs)
      rw [if_pos hc, hsplit, List.filter_append]
      simp [List.filter, hfs]
    · have hc : ¬((st.fs ++ (ancestors (dest ++ e.path).dropLast).filter
          (fun q => !st.fs.contains q)).contains (dest ++ e.path) = true) := by
        rw [List.elem_iff]
        intro hmem
        rcases List.mem_append.mp hmem with h | h
        · exact hfs h
        · exact hnm h
      rw [if_neg hc, hsplit, List.filter_append]
      simp [List.filter, hfs]
  · rw [extract_entry]
    simp [hdir, create_dir_all]

theorem extract_fold_spec (dest : List String) :
    ∀ (entries : List ZEntry) (st : ExtractState),
      (∀ e ∈ entries, e.path ≠ []) →
      ((entries.foldl (extract_entry dest) st).ledger =
          st.ledger ++ entries.map (fun e => dest ++ e.path)) ∧
      (∀ p, p ∈ (entries.foldl (extract_entry dest) st).fs ↔
          p ∈ st.fs ∨ ∃ e ∈ entries, p ∈ ancestors (dest ++ e.path)) ∧
      (∀ p, p ∈ (entries.foldl (extract_entry dest) st).created ↔
          p ∈ st.created ∨ (p ∉ st.fs ∧ ∃ e ∈ entries, p ∈ ancestors (dest ++ e.path))) := by
  intro entries
  induction entries with
  | nil =>
    intro st _
    refine ⟨by simp, fun p => by simp, fun p => by simp⟩
  | cons e rest ih =>
    intro st hne
    rw [List.foldl_cons, extract_entry_eq dest st e (hne e (List.mem_cons_self e rest))]
    obtain ⟨ihl, ihf, ihc⟩ := ih _ (fun e2 h2 => hne e2 (List.mem_cons_of_mem e h2))
    refine ⟨?_, ?_, ?_⟩
    · rw [ihl]
      simp [List.append_assoc]
    · intro p
      rw [ihf p]
      simp only [mem_filter_not_contains, List.mem_append, List.exists_mem_cons_iff]
      tauto
    · intro p
      rw [ihc p]
      simp only [mem_filter_not_contains, List.mem_append, List.exists_mem_cons_iff]
      tauto

/-- C6 (amended): for every archive (entries with nonempty paths) and
initial filesystem, `extract_zip` clears the in-memory ledger and then,
on success, leaves it holding exactly the entries' output paths in entry
(creation) order — directory entries and file entries alike — and this is
what is persisted; but parent directories implicitly created for an
entry are not recorded: a path exists afterwards iff it existed before or
is an ancestor (including itself) of some entry's output path, and the
newly created paths are exactly the previously missing ones among those,
which can strictly include the ledger's contents. -/
theorem extract_zip_spec :
    ∀ (dest : List String) (entries : List ZEntry) (fs0 : List (List String)),
      (∀ e ∈ entries, e.path ≠ []) →
      ((extract_zip dest entries fs0).ledger =
          entries.map (fun e => dest ++ e.path)) ∧
      (∀ p, p ∈ (extract_zip dest entries fs0).fs ↔
          p ∈ fs0 ∨ ∃ e ∈ entries, p ∈ ancestors (dest ++ e.path)) ∧
      (∀ p, p ∈ (extract_zip dest entries fs0).created ↔
          p ∉ fs0 ∧ ∃ e ∈ entries, p ∈ ancestors (dest ++ e.path)) := by
  intro dest entries fs0 hne
  obtain ⟨hl, hf, hc⟩ := extract_fold_spec dest entries ⟨fs0, [], []⟩ hne
  refine ⟨by simpa using hl, hf, fun p => ?_⟩
  rw [extract_zip, hc p]
  simp

/-- Witness for C6 (amended) at a concrete archive with one file entry
and one directory entry. -/
theorem extract_zip_spec_witness :
    (extract_zip [] [⟨["a.txt"], false⟩, ⟨["d"], true⟩] []).ledger =
      [["a.txt"], ["d"]] ∧
    ["d"] ∈ (extract_zip [] [⟨["a.txt"], false⟩, ⟨["d"], true⟩] []).fs := by
  have h := extract_zip_spec [] [⟨["a.txt"], false⟩, ⟨["d"], true⟩] [] (by decide)
  constructor
  · rw [h.1]
    rfl
  · exact (h.2.1 ["d"]).mpr (Or.inr ⟨⟨["d"], true⟩, by decide, by decide⟩)

/-- C6 counterexample: extracting the single file entry `dir/b.txt` into
an empty filesystem creates two paths — the implicit parent directory
`dir` and the file itself — but the ledger records only the file, so the
ledger does not contain every path created by the extraction. -/
theorem extract_ledger_counterexample :
    (extract_zip [] [⟨["dir", "b.txt"], false⟩] []).created =
      [["dir"], ["dir", "b.txt"]] ∧
    (extract_zip [] [⟨["dir", "b.txt"], false⟩] []).ledger =
      [["dir", "b.txt"]] := by
  decide

/-! ## FileManager.remove_old_files (`src/file/mod.rs` lines 249-277) -/

/-- `Path::is_file` over the model filesystem: a list of (path, is-dir)
entries. -/
def is_file (fs : List (List String × Bool)) (p : List String) : Bool :=
  fs.contains (p, false)

/-- `Path::is_dir` over the model filesystem. -/
def is_dir (fs : List (List String × Bool)) (p : List String) : Bool :=
  fs.contains (p, true)

/-- Emptiness of a directory in the model filesystem: no entry strictly
below it.  This is the pure predicate; the operation that queries it
during the cleanup loop (`fs::read_dir`) is fallible, see
`read_dir_first_none`. -/
def dir_empty (fs : List (List String × Bool)) (p : List String) : Bool :=
  !(fs.any fun q => decide (p <+: q.1) && decide (q.1 ≠ p))

/-- `fs::read_dir(path)?.next().is_none()` (file/mod.rs line 265): query
whether the directory is empty.  Listing the directory is itself
fallible — an unreadable directory yields an I/O error, which the `?`
propagates (converted to the crate's I/O error kind) — so the query
returns `Except`; the `fail_read` set models the directories whose
listing fails. -/
def read_dir_first_none (fail_read : List (List String))
    (fs : List (List String × Bool)) (p : List String) : Except Err Bool :=
  if fail_read.contains p then
    Except.error (Err.io "read_dir failed")
  else
    Except.ok (dir_empty fs p)

/-- One iteration of the `remove_old_files` loop (file/mod.rs lines
256-275): remove a file best-effort (failures — modelled by the
`fail_remove` set — are logged and skipped, never returned); for a
directory, query its emptiness (propagating a listing failure — the
loop's one `?`) and remove it best-effort only when empty; skip paths
that exist as neither. -/
def remove_step (fail_remove fail_read : List (List String))
    (fs : List (List String × Bool)) (p : List String) :
    Except Err (List (List String × Bool)) :=
  if is_file fs p then
    Except.ok
      (if fail_remove.contains p then fs else fs.filter (fun q => q ≠ (p, false)))
  else if is_dir fs p then
    match read_dir_first_none fail_read fs p with
    | Except.error e => Except.error e
    | Except.ok true =>
      Except.ok
        (if fail_remove.contains p then fs else fs.filter (fun q => q ≠ (p, true)))
    | Except.ok false => Except.ok fs
  else
    Except.ok fs

/-- The `for` loop of `remove_old_files` over the reversed ledger: each
iteration may propagate a directory-listing error, which aborts the
remaining iterations. -/
def remove_loop (fail_remove fail_read : List (List String)) :
    List (List String) → List (List String × Bool) →
      Except Err (List (List String × Bool))
  | [], fs => Except.ok fs
  | p :: rest, fs =>
    match remove_step fail_remove fail_read fs p with
    | Except.error e => Except.error e
    | Except.ok fs2 => remove_loop fail_remove fail_read rest fs2

/-- `FileManager::remove_old_files` (file/mod.rs lines 249-277): a never-
populated ledger is a no-op success; otherwise iterate the ledger in
reverse order. -/
def remove_old_files (installed_files : List (List String))
    (fs : List (List String × Bool)) (fail_remove fail_read : List (List String)) :
    Except Err (List (List String × Bool)) :=
  if installed_files.isEmpty then
    Except.ok fs
  else
    remove_loop fail_remove fail_read installed_files.reverse fs

theorem read_dir_first_none_error {fail_read : List (List String)}
    {fs : List (List String × Bool)} {p : List String} {e : Err}
    (h : read_dir_first_none fail_read fs p = Except.error e) :
    e = Err.io "read_dir failed" := by
  unfold read_dir_first_none at h
  split at h
  · injection h with h2
    exact h2.symm
  · exact absurd h (by simp)

theorem remove_step_subset {fail_remove fail_read : List (List String)}
    {fs fs2 : List (List String × Bool)} {p : List String}
    (h : remove_step fail_remove fail_read fs p = Except.ok fs2) : fs2 ⊆ fs := by
  unfold remove_step at h
  repeat' split at h
  all_goals simp at h
  all_goals subst h
  all_goals first
    | exact fun x hx => hx
    | exact fun x hx => List.mem_of_mem_filter hx

theorem remove_loop_subset {fail_remove fail_read : List (List String)} :
    ∀ (l : List (List String)) (fs fs2 : List (List String × Bool)),
      remove_loop fail_remove fail_read l fs = Except.ok fs2 → fs2 ⊆ fs := by
  intro l
  induction l with
  | nil =>
    intro fs fs2 h
    obtain rfl : fs = fs2 := by injection h
    exact fun x hx => hx
  | cons a rest ih =>
    intro fs fs2 h
    simp only [remove_loop] at h
    cases hs : remove_step fail_remove fail_read fs a with
    | error e => rw [hs] at h; simp at h
    | ok fs1 =>
      rw [hs] at h
      exact fun x hx => remove_step_subset hs (ih fs1 fs2 h hx)

theorem remove_step_error {fail_remove fail_read : List (List String)}
    {fs : List (List String × Bool)} {p : List String} {e : Err}
    (h : remove_step fail_remove fail_read fs p = Except.error e) :
    e = Err.io "read_dir failed" := by
  unfold remove_step at h
  by_cases hisf : is_file fs p = true
  · rw [if_pos hisf] at h
    exact absurd h (by simp)
  · rw [if_neg hisf] at h
    by_cases hisd : is_dir fs p = true
    · rw [if_pos hisd] at h
      cases hrd : read_dir_first_none fail_read fs p with
      | error e2 =>
        rw [hrd] at h
        injection h with h2
        exact h2 ▸ read_dir_first_none_error hrd
      | ok b =>
        rw [hrd] at h
        cases b with
        | true => exact absurd h (by simp)
        | false => exact absurd h (by simp)
    · rw [if_neg hisd] at h
      exact absurd h (by simp)

theorem remove_loop_error {fail_remove fail_read : List (List String)} :
    ∀ (l : List (List String)) (fs : List (List String × Bool)) (e : Err),
      remove_loop fail_remove fail_read l fs = Except.error e →
      e = Err.io "read_dir failed" := by
  intro l
  induction l with
  | nil =>
    intro fs e h
    exact absurd h (by simp [remove_loop])
  | cons a rest ih =>
    intro fs e h
    simp only [remove_loop] at h
    cases hs : remove_step fail_remove fail_read fs a with
    | error e2 =>
      rw [hs] at h
      injection h with h2
      rw [← h2]
      exact remove_step_error hs
    | ok fs1 =>
      rw [hs] at h
      exact ih fs1 e h

theorem remove_loop_ok {fail_remove : List (List String)} :
    ∀ (l : List (List String)) (fs : List (List String × Bool)),
      ∃ fs2, remove_loop fail_remove [] l fs = Except.ok fs2 := by
  intro l
  induction l with
  | nil => intro fs; exact ⟨fs, rfl⟩
  | cons a rest ih =>
    intro fs
    have hstep : ∃ fs1, remove_step fail_remove [] fs a = Except.ok fs1 := by
      unfold remove_step read_dir_first_none
      repeat' split
      all_goals first
        | exact ⟨_, rfl⟩
        | simp_all
    obtain ⟨fs1, hs⟩ := hstep
    simp only [remove_loop]
    rw [hs]
    exact ih fs1

theorem remove_step_file_gone {fail_remove fail_read : List (List String)}
    {fs fs2 : List (List String × Bool)} {p : List String} (hf : p ∉ fail_remove)
    (h : remove_step fail_remove fail_read fs p = Except.ok fs2) :
    (p, false) ∉ fs2 := by
  by_cases hisf : is_file fs p = true
  · unfold remove_step at h
    rw [if_pos hisf] at h
    have hc : ¬(fail_remove.contains p = true) := fun hh => hf (List.elem_iff.mp hh)
    rw [if_neg hc] at h
    obtain rfl : fs.filter (fun q => q ≠ (p, false)) = fs2 := by injection h
    intro hmem
    have := List.of_mem_filter hmem
    simp at this
  · intro hmem
    exact hisf (List.elem_iff.mpr (remove_step_subset h hmem))

theorem remove_loop_file {fail_remove fail_read : List (List String)}
    {p : List String} (hf : p ∉ fail_remove) :
    ∀ (l : List (List String)) (fs fs2 : List (List String × Bool)), p ∈ l →
      remove_loop fail_remove fail_read l fs = Except.ok fs2 →
      (p, false) ∉ fs2 := by
  intro l
  induction l with
  | nil => intro fs fs2 hmem _; exact absurd hmem (List.not_mem_nil p)
  | cons a rest ih =>
    intro fs fs2 hmem hloop
    simp only [remove_loop] at hloop
    cases hs : remove_step fail_remove fail_read fs a with
    | error e => rw [hs] at hloop; simp at hloop
    | ok fs1 =>
      rw [hs] at hloop
      by_cases hback : p ∈ rest
      · exact ih fs1 fs2 hback hloop
      · have ha : a = p := by
          rcases List.mem_cons.mp hmem with h | h
          · exact h.symm
          · exact absurd h hback
        subst ha
        intro hmem2
        exact remove_step_file_gone hf hs (remove_loop_subset rest fs1 fs2 hloop hmem2)

theorem dir_empty_iff {fs : List (List String × Bool)} {p : List String} :
    dir_empty fs p = true ↔ ∀ q ∈ fs, p <+: q.1 → q.1 = p := by
  simp only [dir_empty, Bool.not_eq_true']
  rw [List.any_eq_false]
  constructor
  · intro h q hq hpfx
    have := h q hq
    simp only [Bool.and_eq_true, decide_eq_true_eq] at this
    by_contra hne
    exact this ⟨hpfx, hne⟩
  · intro h q hq
    simp only [Bool.and_eq_true, decide_eq_true_eq]
    rintro ⟨hpfx, hne⟩
    exact hne (h q hq hpfx)

theorem remove_step_dir_kept {fail_remove fail_read : List (List String)}
    {fs fs2 : List (List String × Bool)} {p a : List String}
    (h1 : (p, true) ∈ fs)
    (hs : remove_step fail_remove fail_read fs a = Except.ok fs2)
    (h2 : (p, true) ∉ fs2) : dir_empty fs p = true := by
  unfold remove_step at hs
  by_cases hisf : is_file fs a = true
  · rw [if_pos hisf] at hs
    obtain rfl :
        (if fail_remove.contains a then fs else fs.filter (fun q => q ≠ (a, false))) =
          fs2 := by injection hs
    split at h2
    · exact absurd h1 h2
    · exact absurd (List.mem_filter.mpr ⟨h1, by simp⟩) h2
  · rw [if_neg hisf] at hs
    by_cases hisd : is_dir fs a = true
    · rw [if_pos hisd] at hs
      cases hrd : read_dir_first_none fail_read fs a with
      | error e => rw [hrd] at hs; simp at hs
      | ok b =>
        cases b with
        | false =>
          rw [hrd] at hs
          obtain rfl : fs = fs2 := by injection hs
          exact absurd h1 h2
        | true =>
          rw [hrd] at hs
          have hde : dir_empty fs a = true := by
            unfold read_dir_first_none at hrd
            split at hrd
            all_goals simp_all
          obtain rfl :
              (if fail_remove.contains a then fs
               else fs.filter (fun q => q ≠ (a, true))) = fs2 := by injection hs
          split at h2
          · exact absurd h1 h2
          · by_cases hpa : p = a
            · exact hpa ▸ hde
            · exact absurd (List.mem_filter.mpr ⟨h1, by simp [hpa]⟩) h2
    · rw [if_neg hisd] at hs
      obtain rfl : fs = fs2 := by injection hs
      exact absurd h1 h2

theorem remove_loop_dir {fail_remove fail_read : List (List String)}
    {p : List String} :
    ∀ (l : List (List String)) (fs fs2 : List (List String × Bool)),
      (p, true) ∈ fs →
      remove_loop fail_remove fail_read l fs = Except.ok fs2 →
      dir_empty fs2 p = false → (p, true) ∈ fs2 := by
  intro l
  induction l with
  | nil =>
    intro fs fs2 h1 hloop _
    obtain rfl : fs = fs2 := by injection hloop
    exact h1
  | cons a rest ih =>
    intro fs fs2 h1 hloop hne
    simp only [remove_loop] at hloop
    cases hs : remove_step fail_remove fail_read fs a with
    | error e => rw [hs] at hloop; simp at hloop
    | ok fs1 =>
      rw [hs] at hloop
      by_cases hkeep : (p, true) ∈ fs1
      · exact ih fs1 fs2 hkeep hloop hne
      · exfalso
        have hde : dir_empty fs p = true := remove_step_dir_kept h1 hs hkeep
        have hde2 : dir_empty fs2 p = true := by
          rw [dir_empty_iff] at hde ⊢
          intro q hq hpfx
          exact hde q
            (remove_step_subset hs (remove_loop_subset rest fs1 fs2 hloop hq)) hpfx
        rw [hde2] at hne
        exact absurd hne (by decide)

/-- C7: `remove_old_files` iterates the ledger in reverse order (see the
definition) and: an empty ledger is a no-op returning success; removal
failures (the `fail_remove` set models files and directories the OS
refuses to remove) are logged and skipped, never propagated — the only
error the function can return is the I/O error of the fallible
`fs::read_dir` emptiness query (the loop's one `?`), and when no listing
fails the call succeeds whatever removals fail; every ledger file whose
own removal does not fail is absent after a successful run, so one
failing file cannot abort the rest of the cleanup; and a directory is
removed only if it is empty once its children have been removed — a
directory still non-empty at the end was never removed. -/
theorem remove_old_files_spec :
    ∀ (ledger : List (List String)) (fs : List (List String × Bool))
      (fail_remove fail_read : List (List String)),
      (remove_old_files [] fs fail_remove fail_read = Except.ok fs) ∧
      (∀ e, remove_old_files ledger fs fail_remove fail_read = Except.error e →
        e = Err.io "read_dir failed") ∧
      (∃ fs2, remove_old_files ledger fs fail_remove [] = Except.ok fs2) ∧
      (∀ fs2, remove_old_files ledger fs fail_remove fail_read = Except.ok fs2 →
        (∀ p, p ∈ ledger → p ∉ fail_remove → (p, false) ∉ fs2) ∧
        (∀ p, (p, true) ∈ fs → dir_empty fs2 p = false → (p, true) ∈ fs2)) := by
  intro ledger fs fail_remove fail_read
  refine ⟨rfl, ?_, ?_, ?_⟩
  · intro e h
    unfold remove_old_files at h
    split at h
    · exact absurd h (by simp)
    · exact remove_loop_error ledger.reverse fs e h
  · unfold remove_old_files
    split
    · exact ⟨fs, rfl⟩
    · exact remove_loop_ok ledger.reverse fs
  · intro fs2 h
    unfold remove_old_files at h
    split at h
    · rename_i hemp
      have hled : ledger = [] := List.isEmpty_iff.mp hemp
      subst hled
      obtain rfl : fs = fs2 := by injection h
      exact ⟨fun p hp => absurd hp (List.not_mem_nil p), fun p h1 _ => h1⟩
    · exact
        ⟨fun p hp hf =>
          remove_loop_file hf ledger.reverse fs fs2 (List.mem_reverse.mpr hp) h,
         fun p h1 hne => remove_loop_dir ledger.reverse fs fs2 h1 h hne⟩

/-- Witness for C7 at concrete inputs: the empty ledger is a no-op; with
ledger entries `a` and `b` where removing `b` fails (but no directory
listing fails), the run still succeeds and `a` is still removed. -/
theorem remove_old_files_spec_witness :
    remove_old_files [] [(["a"], false)] [] [] = Except.ok [(["a"], false)] ∧
    (["a"], false) ∉ [((["b"] : List String), false)] := by
  constructor
  · exact (remove_old_files_spec [] [(["a"], false)] [] []).1
  · exact ((remove_old_files_spec [["a"], ["b"]] [(["a"], false), (["b"], false)]
      [["b"]] []).2.2.2 [(["b"], false)] rfl).1 ["a"] (by decide) (by decide)

/-! ## Lockfile (`src/file/mod.rs` lines 279-309) -/

/-- The staleness threshold: `Duration::from_secs(60)`, in nanoseconds
(the resolution of `SystemTime` comparisons). -/
def lock_stale_ns : Int := 60 * 1000000000

/-- `FileManager::create_lockfile` (file/mod.rs lines 279-283) over the
model lock state: the lock file exists with modification time `now` (its
content, the process id, plays no role in the checks). -/
def create_lockfile (now : Int) : Option Int :=
  some now

/-- `FileManager::check_lockfile` (file/mod.rs lines 285-304) over the
model lock state (`none` = no file, `some m` = file with modification
time `m`, in nanoseconds): a missing file is unlocked; an existing file
older than 60 seconds is deleted and reported unlocked (self-healing);
otherwise locked.  `SystemTime::now().duration_since(modified)` fails
when `m > now` (a future timestamp); the code then skips the staleness
check and reports locked, which coincides with `now - m ≤ 60s` on
integers.  Returns (result, state of the lock file afterwards). -/
def check_lockfile (st : Option Int) (now : Int) : Bool × Option Int :=
  match st with
  | none => (false, none)
  | some m =>
    if now - m > lock_stale_ns then
      (false, none)
    else
      (true, some m)

/-- C8: `check_lockfile` returns false for a missing lock file; for an
existing lock file modified more than 60 seconds before now it deletes
the file and returns false; otherwise (modified within the last 60
seconds, or in the future) it keeps the file and returns true — in
particular it returns true immediately after `create_lockfile`. -/
theorem check_lockfile_spec :
    ∀ (now m : Int),
      (check_lockfile none now = (false, none)) ∧
      (now - m > lock_stale_ns → check_lockfile (some m) now = (false, none)) ∧
      (now - m ≤ lock_stale_ns → check_lockfile (some m) now = (true, some m)) ∧
      (check_lockfile (create_lockfile now) now = (true, some now)) := by
  intro now m
  refine ⟨rfl, ?_, ?_, ?_⟩
  · intro h
    simp [check_lockfile, h]
  · intro h
    simp [check_lockfile, Int.not_lt.mpr h]
  · simp [check_lockfile, create_lockfile, lock_stale_ns]

/-- Witness for C8 at concrete times (now = 100s; a lock 61s old is
stale, a lock 60s old is not). -/
theorem check_lockfile_spec_witness :
    check_lockfile none 100000000000 = (false, none) ∧
    check_lockfile (some 39000000000) 100000000000 = (false, none) ∧
    check_lockfile (some 40000000000) 100000000000 = (true, some 40000000000) ∧
    check_lockfile (create_lockfile 100000000000) 100000000000 =
      (true, some 100000000000) :=
  ⟨(check_lockfile_spec 100000000000 0).1,
   (check_lockfile_spec 100000000000 39000000000).2.1 (by decide),
   ((check_lockfile_spec 100000000000 40000000000).2.2).1 (by decide),
   ((check_lockfile_spec 100000000000 0).2.2).2⟩

/-! ## UpdateOrchestrator (`src/main.rs` lines 187-364) -/

/-- Rust `str::is_char_boundary(8)` on the UTF-8 bytes of the decoded app
secret, as required for the byte slice `&app_secret[..8]` (main.rs line
203) not to panic: the index must not exceed the length, and if interior
it must not fall on a UTF-8 continuation byte (a byte in `0x80..0xC0`). -/
def slice8_ok (bytes : List Nat) : Bool :=
  if bytes.length < 8 then false
  else if bytes.length = 8 then true
  else !(decide (128 ≤ bytes.getD 8 0) && decide (bytes.getD 8 0 < 192))

/-- The externally visible steps of one orchestrator run, in the order
they are attempted. -/
inductive Event
  | checkConn
  | fetchAppInfo
  | fetchVersion
  | getUrls
  | download
  | removeOld
  | extract
  | saveVersion
  | resolveManifest
  | launch
  deriving DecidableEq, Repr

/-- How a run ends: an uncatchable panic, a reported tagged error, or
normal completion. -/
inductive Outcome
  | panic
  | failure (e : Err)
  | success
  deriving DecidableEq, Repr

/-- The data recovered from `launcher.dat` (`LauncherData`): the embedded
patcher secret, and the decoded app secret as its UTF-8 bytes (byte
slicing operates on bytes). -/
structure DatData where
  patcher_secret : List Char
  app_secret_bytes : List Nat
  deriving DecidableEq, Repr

/-- The orchestrator's collaborators, as an oracle record: each fallible
step's result.  UI-channel sends are modelled as infallible. -/
structure OrcEnv where
  dat_file : Except Err DatData
  fm_init : Except Err Unit
  connection : Except Err Bool
  app_info : Except Err (Option (List Char))
  latest_version : Except Err (List Char)
  stored_version : Option (List Char)
  content_urls : Except Err (List (List Char))
  download_ok : Except Err Unit
  remove_old_ok : Except Err Unit
  extract_ok : Except Err Unit
  save_ok : Except Err Unit
  manifest_launch : Except Err Unit

/-- `launch_from_manifest` (main.rs lines 322-364), abstracted: read and
parse the manifest, resolve target and arguments, spawn the executable —
modelled as one resolveManifest step followed, on success, by the launch
step. -/
def launch_from_manifest_events (env : OrcEnv) : List Event × Outcome :=
  match env.manifest_launch with
  | .error e => ([.resolveManifest], .failure e)
  | .ok _ => ([.resolveManifest, .launch], .success)

/-- `run_launcher` (main.rs lines 187-320): read `launcher.dat`; derive
the app slug by byte-slicing the decoded app secret at index 8 (a panic,
not an error, when the slice precondition fails); initialise the file
manager; check connectivity (a false result is the tagged error "No
internet connection"); fetch app info; prefer its patcher secret over the
embedded one; fetch the latest version; if no update is needed, resolve
the manifest and launch; otherwise fetch content URLs (an empty list ends
the run successfully with a warning, without launching), download, remove
old files, extract, save the version, then resolve the manifest and
launch.  Every failure aborts the remaining steps.  Returns the attempted
steps in order, and the outcome. -/
def run_launcher (env : OrcEnv) : List Event × Outcome :=
  match env.dat_file with
  | .error e => ([], .failure e)
  | .ok dat =>
    if slice8_ok dat.app_secret_bytes then
      match env.fm_init with
      | .error e => ([], .failure e)
      | .ok _ =>
        match env.connection with
        | .error e => ([.checkConn], .failure e)
        | .ok false => ([.checkConn], .failure (.other "No internet connection"))
        | .ok true =>
          match env.app_info with
          | .error e => ([.checkConn, .fetchAppInfo], .failure e)
          | .ok ai =>
            match env.latest_version with
            | .error e => ([.checkConn, .fetchAppInfo, .fetchVersion], .failure e)
            | .ok version =>
              if needs_update env.stored_version version (ai.getD dat.patcher_secret) then
                match env.content_urls with
                | .error e =>
                  ([.checkConn, .fetchAppInfo, .fetchVersion, .getUrls], .failure e)
                | .ok urls =>
                  match urls.head? with
                  | none => ([.checkConn, .fetchAppInfo, .fetchVersion, .getUrls], .success)
                  | some _ =>
                    match env.download_ok with
                    | .error e =>
                      ([.checkConn, .fetchAppInfo, .fetchVersion, .getUrls, .download],
                        .failure e)
                    | .ok _ =>
                      match env.remove_old_ok with
                      | .error e =>
                        ([.checkConn, .fetchAppInfo, .fetchVersion, .getUrls, .download,
                          .removeOld], .failure e)
                      | .ok _ =>
                        match env.extract_ok with
                        | .error e =>
                          ([.checkConn, .fetchAppInfo, .fetchVersion, .getUrls, .download,
                            .removeOld, .extract], .failure e)
                        | .ok _ =>
                          match env.save_ok with
                          | .error e =>
                            ([.checkConn, .fetchAppInfo, .fetchVersion, .getUrls,
                              .download, .removeOld, .extract, .saveVersion], .failure e)
                          | .ok _ =>
                            let r := launch_from_manifest_events env
                            ([.checkConn, .fetchAppInfo, .fetchVersion, .getUrls,
                              .download, .removeOld, .extract, .saveVersion] ++ r.1, r.2)
              else
                let r := launch_from_manifest_events env
                ([.checkConn, .fetchAppInfo, .fetchVersion] ++ r.1, r.2)
    else
      ([], .panic)

/-- C9: in every orchestrator run the attempted steps form a prefix of
one of the two canonical sequences — the update sequence (connectivity,
app info, version, URLs, download, remove old files, extract, persist
version, resolve manifest, launch) or the up-to-date sequence
(connectivity, app info, version, resolve manifest, launch) — so
RemoveOldFiles, when it happens at all, comes strictly after the download
and strictly before extraction; it happens only when `needs_update` was
computed true; when `needs_update` is false the run performs neither
download nor removal nor extraction nor version persistence and proceeds
directly to manifest resolution and launch; and on a fully successful
update run the steps are exactly download, then remove old files, then
extract, then persist version, then resolve manifest and launch. -/
theorem run_launcher_order :
    ∀ env : OrcEnv,
      ((run_launcher env).1 <+:
          [Event.checkConn, Event.fetchAppInfo, Event.fetchVersion, Event.getUrls,
            Event.download, Event.removeOld, Event.extract, Event.saveVersion,
            Event.resolveManifest, Event.launch] ∨
        (run_launcher env).1 <+:
          [Event.checkConn, Event.fetchAppInfo, Event.fetchVersion,
            Event.resolveManifest, Event.launch]) ∧
      (Event.removeOld ∈ (run_launcher env).1 →
        ∃ dat ai version, env.dat_file = Except.ok dat ∧ env.app_info = Except.ok ai ∧
          env.latest_version = Except.ok version ∧
          needs_update env.stored_version version (ai.getD dat.patcher_secret) = true) ∧
      (∀ dat ai version, env.dat_file = Except.ok dat →
        slice8_ok dat.app_secret_bytes = true → env.fm_init = Except.ok () →
        env.connection = Except.ok true → env.app_info = Except.ok ai →
        env.latest_version = Except.ok version →
        (needs_update env.stored_version version (ai.getD dat.patcher_secret) = false →
          Event.download ∉ (run_launcher env).1 ∧
          Event.removeOld ∉ (run_launcher env).1 ∧
          Event.extract ∉ (run_launcher env).1 ∧
          Event.saveVersion ∉ (run_launcher env).1 ∧
          Event.resolveManifest ∈ (run_launcher env).1 ∧
          (env.manifest_launch = Except.ok () →
            (run_launcher env).1 = [Event.checkConn, Event.fetchAppInfo,
              Event.fetchVersion, Event.resolveManifest, Event.launch] ∧
            (run_launcher env).2 = Outcome.success)) ∧
        (needs_update env.stored_version version (ai.getD dat.patcher_secret) = true →
          ∀ urls u, env.content_urls = Except.ok urls → urls.head? = some u →
          env.download_ok = Except.ok () → env.remove_old_ok = Except.ok () →
          env.extract_ok = Except.ok () → env.save_ok = Except.ok () →
          env.manifest_launch = Except.ok () →
          (run_launcher env).1 = [Event.checkConn, Event.fetchAppInfo,
            Event.fetchVersion, Event.getUrls, Event.download, Event.removeOld,
            Event.extract, Event.saveVersion, Event.resolveManifest, Event.launch] ∧
          (run_launcher env).2 = Outcome.success)) := by
  intro env
  refine ⟨?_, ?_, ?_⟩
  · simp only [run_launcher, launch_from_manifest_events]
    repeat' split
    all_goals dsimp only
    all_goals first
      | exact Or.inl (by decide)
      | exact Or.inr (by decide)
  · simp only [run_launcher, launch_from_manifest_events]
    repeat' split
    all_goals intro hmem
    all_goals dsimp only at hmem
    all_goals first
      | exact absurd hmem (by decide)
      | exact ⟨_, _, _, ‹_›, ‹_›, ‹_›, ‹_›⟩
  · intro dat ai version h1 h2 h3 h4 h5 h6
    constructor
    · intro hneed
      have hrun : run_launcher env =
          ([Event.checkConn, Event.fetchAppInfo, Event.fetchVersion] ++
            (launch_from_manifest_events env).1,
           (launch_from_manifest_events env).2) := by
        simp [run_launcher, h1, h2, h3, h4, h5, h6, hneed]
      cases hml : env.manifest_launch with
      | error e =>
        rw [hrun]
        simp [launch_from_manifest_events, hml]
      | ok u =>
        rw [hrun]
        simp [launch_from_manifest_events, hml]
    · intro hneed urls u hurls hu hdl hrm hex hsv hml
      have hrun : run_launcher env =
          ([Event.checkConn, Event.fetchAppInfo, Event.fetchVersion, Event.getUrls,
            Event.download, Event.removeOld, Event.extract, Event.saveVersion,
            Event.resolveManifest, Event.launch], Outcome.success) := by
        simp [run_launcher, launch_from_manifest_events, h1, h2, h3, h4, h5, h6,
          hneed, hurls, hu, hdl, hrm, hex, hsv, hml]
      rw [hrun]
      exact ⟨rfl, rfl⟩

/-- The end-to-end up-to-date scenario of the spec: stored version
`"S1:1.0.0"`, server reports version `"1.0.0"` and patcher secret
`"S1"`, all collaborators succeed. -/
def env_up_to_date : OrcEnv where
  dat_file := Except.ok ⟨"emb".toList, [97, 98, 99, 100, 101, 102, 103, 104]⟩
  fm_init := Except.ok ()
  connection := Except.ok true
  app_info := Except.ok (some ("S1".toList))
  latest_version := Except.ok ("1.0.0".toList)
  stored_version := some ("S1:1.0.0".toList)
  content_urls := Except.ok []
  download_ok := Except.ok ()
  remove_old_ok := Except.ok ()
  extract_ok := Except.ok ()
  save_ok := Except.ok ()
  manifest_launch := Except.ok ()

/-- An update scenario: no stored version, one content URL, all
collaborators succeed. -/
def env_update : OrcEnv where
  dat_file := Except.ok ⟨"emb".toList, [97, 98, 99, 100, 101, 102, 103, 104]⟩
  fm_init := Except.ok ()
  connection := Except.ok true
  app_info := Except.ok (some ("S1".toList))
  latest_version := Except.ok ("1.0.0".toList)
  stored_version := none
  content_urls := Except.ok [("u".toList)]
  download_ok := Except.ok ()
  remove_old_ok := Except.ok ()
  extract_ok := Except.ok ()
  save_ok := Except.ok ()
  manifest_launch := Except.ok ()

/-- Witness for C9 at the two concrete scenarios: the up-to-date run
skips download/removal/extraction/persistence and goes straight to
manifest resolution and launch; the update run performs the full ordered
sequence. -/
theorem run_launcher_order_witness :
    (run_launcher env_up_to_date).1 =
      [Event.checkConn, Event.fetchAppInfo, Event.fetchVersion,
        Event.resolveManifest, Event.launch] ∧
    (run_launcher env_up_to_date).2 = Outcome.success ∧
    (run_launcher env_update).1 =
      [Event.checkConn, Event.fetchAppInfo, Event.fetchVersion, Event.getUrls,
        Event.download, Event.removeOld, Event.extract, Event.saveVersion,
        Event.resolveManifest, Event.launch] ∧
    (run_launcher env_update).2 = Outcome.success := by
  have h1 := ((run_launcher_order env_up_to_date).2.2
    ⟨"emb".toList, [97, 98, 99, 100, 101, 102, 103, 104]⟩ (some ("S1".toList))
    ("1.0.0".toList) rfl (by decide) rfl rfl rfl rfl).1 (by decide)
  have h2 := ((run_launcher_order env_update).2.2
    ⟨"emb".toList, [97, 98, 99, 100, 101, 102, 103, 104]⟩ (some ("S1".toList))
    ("1.0.0".toList) rfl (by decide) rfl rfl rfl rfl).2 (by decide)
    [("u".toList)] ("u".toList) rfl rfl rfl rfl rfl rfl rfl
  exact ⟨(h1.2.2.2.2.2 rfl).1, (h1.2.2.2.2.2 rfl).2, h2.1, h2.2⟩

/-- C10: when the credential file is read successfully but its decoded
app secret is shorter than 8 bytes, or its byte at index 8 is a UTF-8
continuation byte (not a character boundary), the slug slice
`app_secret[..8]` panics: the run ends in the panic outcome, not in any
of the tagged error outcomes. -/
theorem run_launcher_panic :
    ∀ (env : OrcEnv) (dat : DatData), env.dat_file = Except.ok dat →
      (dat.app_secret_bytes.length < 8 ∨
        (8 < dat.app_secret_bytes.length ∧
          128 ≤ dat.app_secret_bytes.getD 8 0 ∧ dat.app_secret_bytes.getD 8 0 < 192)) →
      (run_launcher env).2 = Outcome.panic ∧
      ∀ e, (run_launcher env).2 ≠ Outcome.failure e := by
  intro env dat h1 hbad
  have hs : slice8_ok dat.app_secret_bytes = false := by
    rcases hbad with h | ⟨hl, hlo, hhi⟩
    · simp [slice8_ok, h]
    · unfold slice8_ok
      rw [if_neg (by omega), if_neg (by omega)]
      rw [List.getD_eq_getElem?_getD] at hlo hhi
      simp [hlo, hhi]
  have hrun : run_launcher env = ([], Outcome.panic) := by
    simp [run_launcher, h1, hs]
  rw [hrun]
  exact ⟨rfl, fun e h => by cases h⟩

/-- Witness for C10: a credential file whose decoded app secret is the
3-byte string `abc` makes the run panic. -/
theorem run_launcher_panic_witness :
    (run_launcher
      { dat_file := Except.ok ⟨"p".toList, [97, 98, 99]⟩
        fm_init := Except.ok ()
        connection := Except.ok true
        app_info := Except.ok none
        latest_version := Except.ok ("1".toList)
        stored_version := none
        content_urls := Except.ok []
        download_ok := Except.ok ()
        remove_old_ok := Except.ok ()
        extract_ok := Except.ok ()
        save_ok := Except.ok ()
        manifest_launch := Except.ok () }).2 = Outcome.panic := by
  exact (run_launcher_panic _ ⟨"p".toList, [97, 98, 99]⟩ rfl (Or.inl (by decide))).1
